import Mathlib

/-!
Shallow embedding of the Fract library (src/lib.rs, src/utils.rs).

The repository defines four parallel fraction types `Fract8`, `Fract16`,
`Fract32`, `Fract64`, structurally identical up to the unsigned integer
width of their two fields.  We embed them as one structure over `Nat`
together with an explicit width parameter `W`: a value of Rust type
`uW` is a `Nat` below `2 ^ W`, and every wrapping operation of the
source (`*`, `+`, `-` on `u8`/`u16`/`u32`/`u64`) is written with an
explicit `% 2 ^ W`.  Fallible operations of the source (integer `/` and
`%` by zero, which abort in Rust) return `Option`.
-/

/-- Embedding of the Rust structs `Fract8` / `Fract16` / `Fract32` /
`Fract64` (src/lib.rs): a pair of unsigned fields `numerator` and
`denominator`.  The width bound is tracked by the operations, not by
the type. -/
structure Fract where
  numerator : Nat
  denominator : Nat
deriving DecidableEq

namespace Fract

/-- Wrapping coercion of a `Nat` into the `W`-bit range: Rust fixed
width unsigned arithmetic is arithmetic modulo `2 ^ W`. -/
def wrap (W x : Nat) : Nat := x % 2 ^ W

/-- Embedding of `fn new(numerator, denominator)` (src/lib.rs): stores
both fields unchanged, no validation and no reduction. -/
def new (numerator denominator : Nat) : Fract := ⟨numerator, denominator⟩

/-- Embedding of `fn invert(&self)` (src/lib.rs): swaps the two
fields, with no validation of the original numerator. -/
def invert (x : Fract) : Fract := ⟨x.denominator, x.numerator⟩

/-- Embedding of `fn expand(&self, multiplicator)` (src/lib.rs):
multiplies both fields by the factor with the width's wrapping
multiplication. -/
def expand (W : Nat) (x : Fract) (multiplicator : Nat) : Fract :=
  ⟨wrap W (x.numerator * multiplicator), wrap W (x.denominator * multiplicator)⟩

/-- Embedding of `gcd_u8` / `gcd_u16` / `gcd_u32` / `gcd_u64`
(src/utils.rs): the iterative Euclidean loop replacing `(a, b)` by
`(b, a % b)` until `b == 0`, returning the final `a`.  The loop never
wraps (remainders only shrink), so one `Nat` function embeds all four
widths. -/
def gcd_u (first second : Nat) : Nat :=
  if h : second = 0 then first
  else gcd_u second (first % second)
termination_by second
decreasing_by exact Nat.mod_lt first (Nat.pos_of_ne_zero h)

/-- Rust unsigned integer division: `a / b` aborts (panics) when
`b == 0`, embedded as `none`. -/
def checkedDiv (a b : Nat) : Option Nat := if b = 0 then none else some (a / b)

/-- Rust unsigned remainder: `a % b` aborts (panics) when `b == 0`,
embedded as `none`. -/
def checkedMod (a b : Nat) : Option Nat := if b = 0 then none else some (a % b)

/-- Embedding of `fn reduce(&self)` (src/lib.rs): divides both fields
by `gcd_u numerator denominator`; each division is the aborting Rust
`/`, so the result is `none` exactly when a division by zero is hit. -/
def reduce (x : Fract) : Option Fract :=
  let gcd := gcd_u x.numerator x.denominator
  match checkedDiv x.numerator gcd, checkedDiv x.denominator gcd with
  | some n, some d => some ⟨n, d⟩
  | _, _ => none

/-- Embedding of `impl Add` (src/lib.rs): when the denominators
differ, expand each operand by the other's original denominator
(`old_denom` is captured before the left operand is replaced), then
add the numerators with the width's wrapping addition, keeping the
left operand's (now common) denominator. -/
def add (W : Nat) (self rhs : Fract) : Fract :=
  if self.denominator ≠ rhs.denominator then
    let nlhs := expand W self rhs.denominator
    let nrhs := expand W rhs self.denominator
    ⟨wrap W (nlhs.numerator + nrhs.numerator), nlhs.denominator⟩
  else
    ⟨wrap W (self.numerator + rhs.numerator), self.denominator⟩

/-- Rust wrapping unsigned subtraction at width `W` for operands below
`2 ^ W`: written as `(2 ^ W + x - y) % 2 ^ W` over `Nat`. -/
def wsub (W x y : Nat) : Nat := (2 ^ W + x - y) % 2 ^ W

/-- Embedding of `impl Sub` (src/lib.rs): the same denominator
alignment as `add`, then wrapping subtraction of the numerators. -/
def sub (W : Nat) (self rhs : Fract) : Fract :=
  if self.denominator ≠ rhs.denominator then
    let nlhs := expand W self rhs.denominator
    let nrhs := expand W rhs self.denominator
    ⟨wsub W nlhs.numerator nrhs.numerator, nlhs.denominator⟩
  else
    ⟨wsub W self.numerator rhs.numerator, self.denominator⟩

/-- Embedding of `impl Mul` (src/lib.rs): componentwise wrapping
product, no reduction. -/
def mul (W : Nat) (self rhs : Fract) : Fract :=
  ⟨wrap W (self.numerator * rhs.numerator), wrap W (self.denominator * rhs.denominator)⟩

/-- Embedding of `impl Div` (src/lib.rs): `self * rhs.invert()`. -/
def div (W : Nat) (self rhs : Fract) : Fract := mul W self (invert rhs)

/-- One iteration of the Euclidean loop body of `gcd_u8` ..
`gcd_u64` (src/utils.rs) as a step function on the loop state
`(a, b)`; a state with `b == 0` is final and is left unchanged. -/
def gcdStep (p : Nat × Nat) : Nat × Nat :=
  if p.2 = 0 then p else (p.2, p.1 % p.2)

/-- Embedding of the gcd loop with the Rust `%` made explicitly
fallible (`checkedMod`): returns `none` if the loop would ever take a
remainder by zero.  The remainder in the source is evaluated only
after the `b == 0` check has failed, which this definition mirrors. -/
def gcd_u_checked (first second : Nat) : Option Nat :=
  if h : second = 0 then some first
  else match checkedMod first second with
    | none => none
    | some _ => gcd_u_checked second (first % second)
termination_by second
decreasing_by exact Nat.mod_lt first (Nat.pos_of_ne_zero h)

end Fract

namespace Fract

/-- Auxiliary: the Euclidean loop of src/utils.rs computes the
mathematical greatest common divisor. -/
theorem gcd_u_eq_gcd (a b : Nat) : gcd_u a b = Nat.gcd a b := by
  induction b using Nat.strong_induction_on generalizing a with
  | _ b ih =>
    rw [gcd_u]
    by_cases h : b = 0
    · simp [h]
    · rw [dif_neg h, ih (a % b) (Nat.mod_lt a (Nat.pos_of_ne_zero h)),
        Nat.gcd_comm b (a % b), ← Nat.gcd_rec b a, Nat.gcd_comm b a]

/-- Auxiliary: on any input other than `(0, 0)` the divisor
`gcd_u numerator denominator` is nonzero, both checked divisions
succeed, and `reduce` returns the componentwise quotient by the gcd. -/
theorem reduce_eq_some (x : Fract) (h : ¬(x.numerator = 0 ∧ x.denominator = 0)) :
    reduce x = some ⟨x.numerator / Nat.gcd x.numerator x.denominator,
                     x.denominator / Nat.gcd x.numerator x.denominator⟩ := by
  have hg : Nat.gcd x.numerator x.denominator ≠ 0 := by
    rw [Ne, Nat.gcd_eq_zero_iff]
    exact h
  simp [reduce, checkedDiv, gcd_u_eq_gcd, hg]

/-- Auxiliary: wrapping subtraction at width `W`, characterized as
plain subtraction when no underflow occurs and as wraparound by
`2 ^ W` when the left operand is smaller. -/
theorem wsub_eq (W x y : Nat) (hx : x < 2 ^ W) (hy : y < 2 ^ W) :
    wsub W x y = if y ≤ x then x - y else 2 ^ W - (y - x) := by
  unfold wsub
  by_cases h : y ≤ x
  · rw [if_pos h]
    have hsplit : 2 ^ W + x - y = 2 ^ W + (x - y) := by omega
    rw [hsplit, Nat.add_mod_left, Nat.mod_eq_of_lt (by omega)]
  · rw [if_neg h, Nat.mod_eq_of_lt (by omega)]
    omega

end Fract

/-- Claim C1: for every width `W` and all fractions `a`, `b`, `add`
returns `((a.num * b.den + b.num * a.den) mod 2 ^ W, a.den * b.den mod 2 ^ W)`
when the denominators differ, and `((a.num + b.num) mod 2 ^ W, a.den)` when
they are equal; in particular `add (1/2) (9/10) = (28, 20)` at every width. -/
theorem add_spec_C1 (W : Nat) (a b : Fract) :
    Fract.add W a b = (if a.denominator = b.denominator then
        ⟨(a.numerator + b.numerator) % 2 ^ W, a.denominator⟩
      else
        ⟨(a.numerator * b.denominator + b.numerator * a.denominator) % 2 ^ W,
         a.denominator * b.denominator % 2 ^ W⟩) ∧
    Fract.add 8 ⟨1, 2⟩ ⟨9, 10⟩ = ⟨28, 20⟩ ∧ Fract.add 16 ⟨1, 2⟩ ⟨9, 10⟩ = ⟨28, 20⟩ ∧
    Fract.add 32 ⟨1, 2⟩ ⟨9, 10⟩ = ⟨28, 20⟩ ∧ Fract.add 64 ⟨1, 2⟩ ⟨9, 10⟩ = ⟨28, 20⟩ := by
  refine ⟨?_, by decide, by decide, by decide, by decide⟩
  by_cases h : a.denominator = b.denominator
  · simp [Fract.add, Fract.wrap, h]
  · simp [Fract.add, Fract.expand, Fract.wrap, h, Nat.mod_add_mod, Nat.add_mod_mod]

/-- Claim C2: `reduce` faults (returns `none`, the embedding of the
division-by-zero abort) exactly on the input `(0, 0)`; on every other
input it returns both fields divided by their gcd; in particular
`reduce (10, 18) = (5, 9)`, and inputs with exactly one zero field
reduce normally. -/
theorem reduce_spec_C2 (x : Fract) :
    (Fract.reduce x = none ↔ x.numerator = 0 ∧ x.denominator = 0) ∧
    Fract.reduce x = (if x.numerator = 0 ∧ x.denominator = 0 then none
      else some ⟨x.numerator / Nat.gcd x.numerator x.denominator,
                 x.denominator / Nat.gcd x.numerator x.denominator⟩) ∧
    Fract.reduce ⟨10, 18⟩ = some ⟨5, 9⟩ ∧
    Fract.reduce ⟨7, 0⟩ = some ⟨1, 0⟩ ∧ Fract.reduce ⟨0, 7⟩ = some ⟨0, 1⟩ := by
  have hmain : Fract.reduce x = (if x.numerator = 0 ∧ x.denominator = 0 then none
      else some ⟨x.numerator / Nat.gcd x.numerator x.denominator,
                 x.denominator / Nat.gcd x.numerator x.denominator⟩) := by
    by_cases h : x.numerator = 0 ∧ x.denominator = 0
    · obtain ⟨h1, h2⟩ := h
      simp [Fract.reduce, Fract.checkedDiv, Fract.gcd_u_eq_gcd, h1, h2]
    · rw [if_neg h, Fract.reduce_eq_some x h]
  refine ⟨?_, hmain,
    by rw [Fract.reduce_eq_some ⟨10, 18⟩ (by decide)]; decide,
    by rw [Fract.reduce_eq_some ⟨7, 0⟩ (by decide)]; decide,
    by rw [Fract.reduce_eq_some ⟨0, 7⟩ (by decide)]; decide⟩
  rw [hmain]
  by_cases h : x.numerator = 0 ∧ x.denominator = 0 <;> simp [h]

/-- Claim C3: the Euclidean loop `gcd_u` computes the mathematical
greatest common divisor for all inputs of any width, and in particular
`gcd (a, 0) = a`, `gcd (0, b) = b` and `gcd (0, 0) = 0`. -/
theorem gcd_spec_C3 (a b : Nat) :
    Fract.gcd_u a b = Nat.gcd a b ∧
    Fract.gcd_u a 0 = a ∧ Fract.gcd_u 0 b = b ∧ Fract.gcd_u 0 0 = 0 := by
  refine ⟨Fract.gcd_u_eq_gcd a b, ?_, ?_, ?_⟩ <;> simp [Fract.gcd_u_eq_gcd]

/-- Claim C4: `expand` multiplies both fields by the factor modulo
`2 ^ W` for all inputs, and wraps rather than faulting on an
overflowing case at each of the four widths. -/
theorem expand_spec_C4 (W : Nat) (x : Fract) (m : Nat) :
    Fract.expand W x m = ⟨x.numerator * m % 2 ^ W, x.denominator * m % 2 ^ W⟩ ∧
    Fract.expand 8 ⟨200, 3⟩ 2 = ⟨144, 6⟩ ∧
    Fract.expand 16 ⟨40000, 3⟩ 2 = ⟨14464, 6⟩ ∧
    Fract.expand 32 ⟨3000000000, 3⟩ 2 = ⟨1705032704, 6⟩ ∧
    Fract.expand 64 ⟨9223372036854775809, 3⟩ 2 = ⟨2, 6⟩ :=
  ⟨rfl, by decide, by decide, by decide, by decide⟩

/-- Claim C5: `sub` performs the same denominator alignment as `add`,
then subtracts the aligned numerators with wrapping unsigned
subtraction: plain difference when no underflow occurs, wraparound by
`2 ^ W` when the aligned left numerator is smaller; in particular
`sub (4/2) (9/10) = (22, 20)` and `sub (1/2) (9/10)` wraps to
`(248, 20)` at width 8. -/
theorem sub_spec_C5 (W : Nat) (a b : Fract)
    (ha : a.numerator < 2 ^ W) (hb : b.numerator < 2 ^ W) :
    Fract.sub W a b = (if a.denominator = b.denominator then
        ⟨if b.numerator ≤ a.numerator then a.numerator - b.numerator
          else 2 ^ W - (b.numerator - a.numerator), a.denominator⟩
      else
        ⟨if b.numerator * a.denominator % 2 ^ W ≤ a.numerator * b.denominator % 2 ^ W then
            a.numerator * b.denominator % 2 ^ W - b.numerator * a.denominator % 2 ^ W
          else 2 ^ W - (b.numerator * a.denominator % 2 ^ W -
            a.numerator * b.denominator % 2 ^ W),
         a.denominator * b.denominator % 2 ^ W⟩) ∧
    (Fract.sub W a b).denominator = (Fract.add W a b).denominator ∧
    Fract.sub 8 ⟨4, 2⟩ ⟨9, 10⟩ = ⟨22, 20⟩ ∧ Fract.sub 8 ⟨1, 2⟩ ⟨9, 10⟩ = ⟨248, 20⟩ := by
  have hpos : 0 < 2 ^ W := Nat.pos_pow_of_pos W (by norm_num)
  refine ⟨?_, ?_, by decide, by decide⟩
  · by_cases h : a.denominator = b.denominator
    · rw [if_pos h]
      unfold Fract.sub
      rw [if_neg (not_not_intro h), Fract.wsub_eq W _ _ ha hb]
    · rw [if_neg h]
      unfold Fract.sub
      rw [if_pos h]
      dsimp only [Fract.expand, Fract.wrap]
      rw [Fract.wsub_eq W _ _ (Nat.mod_lt _ hpos) (Nat.mod_lt _ hpos)]
  · by_cases h : a.denominator = b.denominator <;>
      simp [Fract.sub, Fract.add, Fract.expand, Fract.wrap, h]

/-- Witness for C5 at a concrete width-8 input. -/
theorem sub_spec_C5_witness :
    (⟨4, 2⟩ : Fract).numerator < 2 ^ 8 ∧ (⟨9, 10⟩ : Fract).numerator < 2 ^ 8 ∧
    Fract.sub 8 ⟨4, 2⟩ ⟨9, 10⟩ = ⟨22, 20⟩ :=
  ⟨by decide, by decide, (sub_spec_C5 8 ⟨4, 2⟩ ⟨9, 10⟩ (by decide) (by decide)).2.2.1⟩

/-- Claim C6: `div` is `mul` by the inverted right operand, hence the
componentwise wrapping cross product; in particular
`div (1/2) (9/10) = (10, 18)`. -/
theorem div_spec_C6 (W : Nat) (a b : Fract) :
    Fract.div W a b = Fract.mul W a (Fract.invert b) ∧
    Fract.div W a b = ⟨a.numerator * b.denominator % 2 ^ W,
                       a.denominator * b.numerator % 2 ^ W⟩ ∧
    Fract.div 8 ⟨1, 2⟩ ⟨9, 10⟩ = ⟨10, 18⟩ :=
  ⟨rfl, rfl, by decide⟩

/-- Claim C7: `reduce` is idempotent on every input whose gcd is
nonzero: reducing once yields a coprime pair, which a second `reduce`
divides by 1 and leaves unchanged. -/
theorem reduce_idem_C7 (x : Fract) (h : ¬(x.numerator = 0 ∧ x.denominator = 0)) :
    (Fract.reduce x).bind Fract.reduce = Fract.reduce x := by
  have hg : 0 < Nat.gcd x.numerator x.denominator := by
    rcases Nat.eq_zero_or_pos (Nat.gcd x.numerator x.denominator) with h0 | h0
    · exact absurd (Nat.gcd_eq_zero_iff.mp h0) h
    · exact h0
  have hco := Nat.coprime_div_gcd_div_gcd hg
  have hnz : ¬(x.numerator / Nat.gcd x.numerator x.denominator = 0 ∧
               x.denominator / Nat.gcd x.numerator x.denominator = 0) := by
    rintro ⟨h1, h2⟩
    rw [Nat.Coprime, h1, h2] at hco
    simp at hco
  have hgcd1 : Nat.gcd (x.numerator / Nat.gcd x.numerator x.denominator)
      (x.denominator / Nat.gcd x.numerator x.denominator) = 1 := hco
  rw [Fract.reduce_eq_some x h, Option.some_bind, Fract.reduce_eq_some _ hnz]
  simp [hgcd1]

/-- Witness for C7 at the concrete input `(10, 18)`. -/
theorem reduce_idem_C7_witness :
    ¬((⟨10, 18⟩ : Fract).numerator = 0 ∧ (⟨10, 18⟩ : Fract).denominator = 0) ∧
    (Fract.reduce ⟨10, 18⟩).bind Fract.reduce = Fract.reduce ⟨10, 18⟩ :=
  ⟨by decide, reduce_idem_C7 ⟨10, 18⟩ (by decide)⟩

/-- Claim C8: `invert` swaps the two fields with no validation and no
fault on zero fields, and is an involution under structural
equality. -/
theorem invert_spec_C8 (x : Fract) :
    Fract.invert x = ⟨x.denominator, x.numerator⟩ ∧
    Fract.invert (Fract.invert x) = x ∧
    Fract.invert ⟨0, 5⟩ = ⟨5, 0⟩ ∧ Fract.invert ⟨7, 0⟩ = ⟨0, 7⟩ :=
  ⟨rfl, rfl, rfl, rfl⟩

/-- Claim C9: the Euclidean loop is total and pure: the checked
variant (whose remainder faults on a zero divisor) never returns
`none` and agrees with `gcd_u`, and iterating the loop body at most
`b` times reaches the exit condition `b = 0` with `gcd_u a b` in the
accumulator. -/
theorem gcd_total_C9 (a b : Nat) :
    Fract.gcd_u_checked a b = some (Fract.gcd_u a b) ∧
    ∃ k, k ≤ b ∧ (Fract.gcdStep^[k] (a, b)).2 = 0 ∧
      (Fract.gcdStep^[k] (a, b)).1 = Fract.gcd_u a b := by
  induction b using Nat.strong_induction_on generalizing a with
  | _ b ih =>
    by_cases h : b = 0
    · subst h
      refine ⟨?_, 0, Nat.le_refl 0, rfl, ?_⟩
      · rw [Fract.gcd_u_checked, Fract.gcd_u]
        simp
      · rw [Fract.gcd_u]
        simp
    · have hlt : a % b < b := Nat.mod_lt a (Nat.pos_of_ne_zero h)
      obtain ⟨ih1, k, hk, hk2, hk1⟩ := ih (a % b) hlt b
      have hgu : Fract.gcd_u a b = Fract.gcd_u b (a % b) := by
        rw [Fract.gcd_u, dif_neg h]
      have hstep : Fract.gcdStep (a, b) = (b, a % b) := by
        simp [Fract.gcdStep, h]
      constructor
      · rw [Fract.gcd_u_checked, dif_neg h]
        simp only [Fract.checkedMod, h, if_false]
        rw [hgu]
        exact ih1
      · refine ⟨k + 1, by omega, ?_, ?_⟩
        · rw [Function.iterate_succ_apply, hstep]
          exact hk2
        · rw [Function.iterate_succ_apply, hstep, hgu]
          exact hk1

/-- Claim C10: addition of fractions is commutative at every width:
both branches of the denominator test produce operand-symmetric
results. -/
theorem add_comm_C10 (W : Nat) (a b : Fract) :
    Fract.add W a b = Fract.add W b a := by
  by_cases h : a.denominator = b.denominator
  · simp [Fract.add, h, Nat.add_comm]
  · have h' : b.denominator ≠ a.denominator := Ne.symm h
    simp [Fract.add, Fract.expand, Fract.wrap, h, h', Nat.add_comm, Nat.mul_comm]
